import Mathlib

/-!
# A verification of the `nazgul` ring-signature library

Shallow embedding of the four ring-signature schemes (SAG, BLSAG, MLSAG,
CLSAG) of the `nazgul` crate, over the Ristretto prime-order group.

Modelling choices:

* The Ristretto group is cyclic of prime order `ℓ`; we represent a group
  element by its discrete logarithm with respect to the base point, so
  `Point := ZMod ℓ`, point addition is `+`, the base point `G` is `1`, and
  `k * P` is the scalar multiple.  `Scalar := ZMod ℓ` as in the source.
* A streaming 64-byte hasher (`Hash: Digest<OutputSize = U64> + Clone`) is
  identified with the byte string it has absorbed so far; `update` is list
  append and `clone` duplicates the string.  The two finalizers
  `Scalar::from_hash` and `RistrettoPoint::from_hash` are the two fields of
  `HashFn`; the schemes are parametrised over `HashFn` exactly as the Rust
  functions are parametrised over the `Hash` type.
* Bytes are modelled as `ℕ`; `compress` is an injective encoding of a point
  as (the model of) its canonical 32-byte form.
* The CSPRNG is a stream `rng : ℕ → Scalar` of uniform scalars, consumed in
  program order.  `MLSAG::sign` additionally draws one `u32`, passed as
  `rand_u32`.
* A Rust panic (out-of-bounds `Vec` indexing, `Vec::insert` past the end) is
  modelled by returning `none`; each `none` branch is annotated with the
  panic site it models.
-/

namespace Nazgul

/-- The order `ℓ = 2^252 + 27742317777372353535851937790883648493` of the
Ristretto group used by `curve25519-dalek` (see `L_eq` below). -/
def L : ℕ :=
  7237005577332262213973186563042994240857116359379907606001950938285454250989

/-- `curve25519_dalek::scalar::Scalar`: an element of `ℤ/ℓ`. -/
abbrev Scalar := ZMod L

/-- `curve25519_dalek::ristretto::RistrettoPoint`, represented by its
discrete logarithm with respect to the base point. -/
abbrev Point := ZMod L

/-- `constants::RISTRETTO_BASEPOINT_POINT`. -/
def G : Point := 1

/-- `RistrettoPoint::compress().as_bytes()`: the canonical injective 32-byte
encoding of a point, modelled as a one-element byte string. -/
def compress (p : Point) : List ℕ := [p.val]

/-- A choice of 64-byte digest algorithm: `toScalar` is
`Scalar::from_hash` (reduce the digest mod `ℓ`) and `toPoint` is
`RistrettoPoint::from_hash` (map the digest to a point), both as functions
of the byte string absorbed by the hasher. -/
structure HashFn where
  toScalar : List ℕ → Scalar
  toPoint : List ℕ → Point

/-- The concatenation of the compressed encodings of a list of points. -/
def ptBytes (ps : List Point) : List ℕ := (ps.map compress).flatten

/-- The byte string of a Rust/Lean string (`.as_bytes()`). -/
def strBytes (s : String) : List ℕ := s.data.map Char.toNat

/-- The ideal Fiat-Shamir challenge sequence: `csSeq ... t` is the challenge
held by ring slot `(π + 1 + t) % n` when the signing loop finishes.  Slot
`(π+1) % n` is seeded from `seed` (the nonce commitment), and each further
challenge hashes `stepBytes c i` for the previous challenge `c` at slot
`i`.  Every hasher starts from the forked prefix `pfx`. -/
def csSeq (H : HashFn) (stepBytes : Scalar → ℕ → List ℕ) (pfx : List ℕ)
    (n π : ℕ) (seed : List ℕ) : ℕ → Scalar
  | 0 => H.toScalar (pfx ++ seed)
  | t + 1 =>
    H.toScalar (pfx ++ stepBytes (csSeq H stepBytes pfx n π seed t) ((π + 1 + t) % n))

/-- The signing loop shared by the four schemes (`sag.rs:61`, `blsag.rs:97`,
`mlsag.rs:117`, `clsag.rs:178`).  The state is the vector `hs` of forked
hashers (each the byte string absorbed so far) and the challenge vector
`cs`; the iteration at index `i` absorbs `stepBytes (cs[i % n]) (i % n)`
into hasher `(i+1) % n`, finalizes challenge `(i+1) % n`, and breaks after
the iteration with `i % n = (π - 1) % n` (for `π = 0`: `i % n = n - 1`).
The Rust loop is unbounded but always breaks within `n` iterations, which
`fuel` (always instantiated with `n`) makes explicit. -/
def fsLoop (H : HashFn) (stepBytes : Scalar → ℕ → List ℕ) (n π : ℕ) :
    ℕ → ℕ → List (List ℕ) → List Scalar → List (List ℕ) × List Scalar
  | 0, _, hs, cs => (hs, cs)
  | fuel + 1, i, hs, cs =>
    let hi := hs.getD ((i + 1) % n) [] ++ stepBytes (cs.getD (i % n) 0) (i % n)
    let hs' := hs.set ((i + 1) % n) hi
    let cs' := cs.set ((i + 1) % n) (H.toScalar hi)
    if (1 ≤ π ∧ i % n = (π - 1) % n) ∨ (π = 0 ∧ i % n = n - 1) then (hs', cs')
    else fsLoop H stepBytes n π fuel ((i + 1) % n) hs' cs'

/-- `sag.rs`: a Spontaneous Anonymous Group signature. -/
structure SAG where
  challenge : Scalar
  responses : List Scalar
  ring : List Point
deriving DecidableEq

/-- `SAG::sign`.  Randomness: `a := rng 0`, `rs[t] := rng (t+1)` in draw
order.  `ring.insert(secret_index, k_point)` panics when
`secret_index > ring.len()`; this is the only reachable panic site and is
modelled by `none` (afterwards `secret_index < n` so `rs[secret_index]` and
`cs[secret_index]` are in bounds). -/
def SAG.sign (H : HashFn) (k : Scalar) (ring : List Point) (secret_index : ℕ)
    (message : List ℕ) (rng : ℕ → Scalar) : Option SAG :=
  if secret_index ≤ ring.length then
    let k_point : Point := k * G
    let n := ring.length + 1
    let ring' := ring.insertIdx secret_index k_point
    let a : Scalar := rng 0
    let rs : List Scalar := (List.range n).map fun t => rng (t + 1)
    let pfx : List ℕ := ptBytes ring' ++ message
    let seed : List ℕ := compress (a * G)
    let stepBytes : Scalar → ℕ → List ℕ := fun c i =>
      compress (rs.getD i 0 * G + c * ring'.getD i 0)
    let hs0 := (List.replicate n pfx).set ((secret_index + 1) % n) (pfx ++ seed)
    let cs0 := (List.replicate n (0 : Scalar)).set ((secret_index + 1) % n)
      (H.toScalar (pfx ++ seed))
    let cs := (fsLoop H stepBytes n secret_index n ((secret_index + 1) % n) hs0 cs0).2
    some { challenge := cs.getD 0 0
           responses := rs.set secret_index (a - cs.getD secret_index 0 * k)
           ring := ring' }
  else none

/-- `SAG::verify`.  The loop indexes `signature.responses[j]` for every
`j < signature.ring.len()`, so it panics (modelled: `none`) exactly when the
responses are shorter than the ring. -/
def SAG.verify (H : HashFn) (signature : SAG) (message : List ℕ) : Option Bool :=
  let n := signature.ring.length
  if n ≤ signature.responses.length then
    let pfx : List ℕ := ptBytes signature.ring ++ message
    let c := (List.range n).foldl
      (fun c j => H.toScalar (pfx ++
        compress (signature.responses.getD j 0 * G + c * signature.ring.getD j 0)))
      signature.challenge
    some (decide (signature.challenge = c))
  else none

/-- `blsag.rs`: a Back's Linkable SAG signature. -/
structure BLSAG where
  challenge : Scalar
  responses : List Scalar
  ring : List Point
  key_image : Point
deriving DecidableEq

/-- `BLSAG::generate_key_image`: `k * H_p(compress(k * G))`. -/
def BLSAG.generate_key_image (H : HashFn) (k : Scalar) : Point :=
  let k_point : Point := k * G
  let key_image : Point := k * H.toPoint (compress k_point)
  key_image

/-- `BLSAG::sign`.  Same structure as `SAG::sign`; the shared hash prefix is
the message alone, and each step absorbs the two points
`r*G + c*P` and `r*H_p(P) + c*I`.  `ring.insert` is the only reachable
panic site. -/
def BLSAG.sign (H : HashFn) (k : Scalar) (ring : List Point) (secret_index : ℕ)
    (message : List ℕ) (rng : ℕ → Scalar) : Option BLSAG :=
  if secret_index ≤ ring.length then
    let k_point : Point := k * G
    let key_image : Point := BLSAG.generate_key_image H k
    let n := ring.length + 1
    let ring' := ring.insertIdx secret_index k_point
    let a : Scalar := rng 0
    let rs : List Scalar := (List.range n).map fun t => rng (t + 1)
    let pfx : List ℕ := message
    let seed : List ℕ :=
      compress (a * G) ++ compress (a * H.toPoint (compress k_point))
    let stepBytes : Scalar → ℕ → List ℕ := fun c i =>
      compress (rs.getD i 0 * G + c * ring'.getD i 0) ++
      compress (rs.getD i 0 * H.toPoint (compress (ring'.getD i 0)) + c * key_image)
    let hs0 := (List.replicate n pfx).set ((secret_index + 1) % n) (pfx ++ seed)
    let cs0 := (List.replicate n (0 : Scalar)).set ((secret_index + 1) % n)
      (H.toScalar (pfx ++ seed))
    let cs := (fsLoop H stepBytes n secret_index n ((secret_index + 1) % n) hs0 cs0).2
    some { challenge := cs.getD 0 0
           responses := rs.set secret_index (a - cs.getD secret_index 0 * k)
           ring := ring'
           key_image := key_image }
  else none

/-- `BLSAG::verify`.  As in `SAG::verify`, `signature.responses[j]` is
indexed for every `j < signature.ring.len()`, so verification panics
(modelled: `none`) exactly when the responses are shorter than the ring. -/
def BLSAG.verify (H : HashFn) (signature : BLSAG) (message : List ℕ) : Option Bool :=
  let n := signature.ring.length
  if n ≤ signature.responses.length then
    let c := (List.range n).foldl
      (fun c j =>
        H.toScalar (message ++
          (compress (signature.responses.getD j 0 * G + c * signature.ring.getD j 0) ++
          compress (signature.responses.getD j 0 *
              H.toPoint (compress (signature.ring.getD j 0)) +
            c * signature.key_image))))
      signature.challenge
    some (decide (signature.challenge = c))
  else none

/-- `BLSAG::link`: two signatures link iff their key images are equal. -/
def BLSAG.link (signature_1 signature_2 : BLSAG) : Bool :=
  decide (signature_1.key_image = signature_2.key_image)

/-- `mlsag.rs`: a Multilayer Linkable SAG signature over an `nr × nc` key
matrix. -/
structure MLSAG where
  challenge : Scalar
  responses : List (List Scalar)
  ring : List (List Point)
  key_images : List Point
deriving DecidableEq

/-- `MLSAG::generate_key_image`: `I_j = ks[j] * H_p(compress(ks[j] * G))`
for `j < nc = ks.len()` (all indexing in bounds, no panic site). -/
def MLSAG.generate_key_image (H : HashFn) (ks : List Scalar) : List Point :=
  let nc := ks.length
  let k_points : List Point := ks.map fun k => k * G
  (List.range nc).map fun j =>
    ks.getD j 0 * H.toPoint (compress (k_points.getD j 0))

/-- `MLSAG::sign`.  Unlike the other three schemes, the current `mlsag.rs`
takes no `secret_index` argument: it draws `secret_index = next_u32() % nr`
from the CSPRNG (`mlsag.rs:79`), here the parameter `rand_u32`.  Scalar
draws in program order: `a[j] := rng j`, `rs[i][j] := rng (nc + i*nc + j)`.
Panic sites modelled by `none`: `ring[0]` on an empty decoy list,
`k_points[j]`/`ks[j]` for `j < nc` when `ks` is shorter than `nc`, and
`ring[i][j]` when a decoy row is shorter than `nc`. -/
def MLSAG.sign (H : HashFn) (ks : List Scalar) (ring : List (List Point))
    (message : List ℕ) (rand_u32 : ℕ) (rng : ℕ → Scalar) : Option MLSAG :=
  if ring = [] then none
  else
    let nr := ring.length + 1
    let nc := (ring.getD 0 []).length
    if nc ≤ ks.length ∧ ∀ row ∈ ring, nc ≤ row.length then
      let k_points : List Point := ks.map fun k => k * G
      let key_images : List Point := MLSAG.generate_key_image H ks
      let secret_index := rand_u32 % nr
      let ring' := ring.insertIdx secret_index k_points
      let a : List Scalar := (List.range nc).map rng
      let rs : List (List Scalar) := (List.range nr).map fun i =>
        (List.range nc).map fun j => rng (nc + i * nc + j)
      let pfx : List ℕ := message
      let seed : List ℕ := ((List.range nc).map fun j =>
        compress (a.getD j 0 * G) ++
        compress (a.getD j 0 * H.toPoint (compress (k_points.getD j 0)))).flatten
      let stepBytes : Scalar → ℕ → List ℕ := fun c i =>
        ((List.range nc).map fun j =>
          compress ((rs.getD i []).getD j 0 * G + c * (ring'.getD i []).getD j 0) ++
          compress ((rs.getD i []).getD j 0 *
              H.toPoint (compress ((ring'.getD i []).getD j 0)) +
            c * key_images.getD j 0)).flatten
      let hs0 := (List.replicate nr pfx).set ((secret_index + 1) % nr) (pfx ++ seed)
      let cs0 := (List.replicate nr (0 : Scalar)).set ((secret_index + 1) % nr)
        (H.toScalar (pfx ++ seed))
      let cs := (fsLoop H stepBytes nr secret_index nr ((secret_index + 1) % nr) hs0 cs0).2
      some { challenge := cs.getD 0 0
             responses := rs.set secret_index ((List.range nc).map fun j =>
               a.getD j 0 - cs.getD secret_index 0 * ks.getD j 0)
             ring := ring'
             key_images := key_images }
    else none

/-- `MLSAG::verify`.  Panic sites modelled by `none`: `ring[0]` on an empty
ring; and, whenever `nc ≥ 1` (for `nc = 0` the inner loop body never runs),
`responses[i]` / `responses[i][j]` / `ring[i][j]` / `key_images[j]` for
`i < nr`, `j < nc`. -/
def MLSAG.verify (H : HashFn) (signature : MLSAG) (message : List ℕ) : Option Bool :=
  if signature.ring = [] then none
  else
    let nr := signature.ring.length
    let nc := (signature.ring.getD 0 []).length
    if nc = 0 ∨ (nr ≤ signature.responses.length ∧
        (∀ row ∈ signature.responses.take nr, nc ≤ row.length) ∧
        (∀ row ∈ signature.ring, nc ≤ row.length) ∧
        nc ≤ signature.key_images.length) then
      some (decide (signature.challenge = (List.range nr).foldl
        (fun c i =>
          H.toScalar (message ++ ((List.range nc).map fun j =>
            compress ((signature.responses.getD i []).getD j 0 * G +
              c * (signature.ring.getD i []).getD j 0) ++
            compress ((signature.responses.getD i []).getD j 0 *
                H.toPoint (compress ((signature.ring.getD i []).getD j 0)) +
              c * signature.key_images.getD j 0)).flatten))
        signature.challenge))
    else none

/-- `MLSAG::link` (`mlsag.rs:201`): concatenate the compressed key images of
both signatures, sort, and look for an adjacent duplicate.  The 32-byte
compressed encodings `x.compress().to_bytes()` compare lexicographically
exactly as the numbers they encode, so the sort key is `ZMod.val` (the
number `compress` encodes). -/
def MLSAG.link (signature_1 signature_2 : MLSAG) : Bool :=
  let v : List ℕ := signature_1.key_images.map ZMod.val ++
    signature_2.key_images.map ZMod.val
  let sorted := v.mergeSort fun x y => decide (x ≤ y)
  (sorted.zip (sorted.drop 1)).any fun p => decide (p.1 = p.2)

/-- `clsag.rs`: a Concise Linkable SAG signature (one response per row). -/
structure CLSAG where
  challenge : Scalar
  responses : List Scalar
  ring : List (List Point)
  key_images : List Point
deriving DecidableEq

/-- The byte string absorbed by the domain-separated hash whose output is
the aggregation coefficient `μ_j`, built identically by `CLSAG::sign`
(`clsag.rs:101-126`) and `CLSAG::verify` (`clsag.rs:235-260`): the label
`format!("CSLAG_{}", j)`, then the ring rows (rows truncated to `nr`, each
row truncated to `nc`, row-major, compressed), then the key images
(truncated to `nc`, compressed). -/
def clsagMuInput (nr nc : ℕ) (rows : List (List Point)) (imgs : List Point)
    (j : ℕ) : List ℕ :=
  strBytes ("CSLAG_" ++ Nat.repr j) ++
    ((rows.take nr).map fun row => ptBytes (row.take nc)).flatten ++
    ptBytes (imgs.take nc)

/-- The aggregation coefficient `μ_j = H_s(clsagMuInput ...)`. -/
def clsagMu (H : HashFn) (nr nc : ℕ) (rows : List (List Point))
    (imgs : List Point) (j : ℕ) : Scalar :=
  H.toScalar (clsagMuInput nr nc rows imgs j)

/-- The byte string seeding every challenge hash of the CLSAG chain, built
identically by `CLSAG::sign` (`clsag.rs:153-165`) and `CLSAG::verify`
(`clsag.rs:279-287`): the label `"CSLAG_c"`, the ring (row-major,
truncated as above), then the message. -/
def clsagChallengeInput (nr nc : ℕ) (rows : List (List Point))
    (message : List ℕ) : List ℕ :=
  strBytes "CSLAG_c" ++
    ((rows.take nr).map fun row => ptBytes (row.take nc)).flatten ++ message

/-- One row's aggregate public key `P̃ = Σ_{j<nc} μ_j * row[j]`. -/
def clsagAggPub (H : HashFn) (nr nc : ℕ) (rows : List (List Point))
    (imgs : List Point) (row : List Point) : Point :=
  ((List.range nc).map fun j => clsagMu H nr nc rows imgs j * row.getD j 0).sum

/-- The aggregate key image `Ĩ = Σ_{j<nc} μ_j * imgs[j]`. -/
def clsagAggImg (H : HashFn) (nr nc : ℕ) (rows : List (List Point))
    (imgs : List Point) : Point :=
  ((List.range nc).map fun j => clsagMu H nr nc rows imgs j * imgs.getD j 0).sum

/-- `CLSAG::generate_key_image`: every column's image is
`ks[j] * H_p(compress(ks[0] * G))`, a multiple of the single hash-to-point
of the column-0 public key.  `k_points[0]` panics on empty `ks`
(modelled: `none`). -/
def CLSAG.generate_key_image (H : HashFn) (ks : List Scalar) :
    Option (List Point) :=
  let k_points : List Point := ks.map fun k => k * G
  if ks = [] then none
  else
    let base_key_hashed_to_point : Point := H.toPoint (compress (k_points.getD 0 0))
    some (ks.map fun k => k * base_key_hashed_to_point)

/-- `CLSAG::sign`.  Scalar draws in program order (`a := rng 0`,
`rs[t] := rng (t+1)`).  Panic sites modelled by `none`: `ring[0]` on an
empty decoy list; `k_points[0]` (via `generate_key_image`) on empty `ks`;
`ks[j]` for `j < nc` when `ks` is shorter than `nc`; `ring[i][j]` in the
aggregation when a row is shorter than `nc`; `ring[i][0]` in the loop when
`nc = 0` (the first decoy row is then empty and is always visited);
`Vec::insert` when `secret_index > ring.len()`. -/
def CLSAG.sign (H : HashFn) (ks : List Scalar) (ring : List (List Point))
    (secret_index : ℕ) (message : List ℕ) (rng : ℕ → Scalar) : Option CLSAG :=
  if ring = [] then none
  else
    let nr := ring.length + 1
    let nc := (ring.getD 0 []).length
    match CLSAG.generate_key_image H ks with
    | none => none
    | some key_images =>
      if 1 ≤ nc ∧ nc ≤ ks.length ∧ (∀ row ∈ ring, nc ≤ row.length) ∧
          secret_index ≤ ring.length then
        let k_points : List Point := ks.map fun k => k * G
        let base_key_hashed_to_point : Point :=
          H.toPoint (compress (k_points.getD 0 0))
        let ring' := ring.insertIdx secret_index k_points
        let a : Scalar := rng 0
        let rs : List Scalar := (List.range nr).map fun t => rng (t + 1)
        let aggregate_private_key : Scalar :=
          ((List.range nc).map fun j =>
            clsagMu H nr nc ring' key_images j * ks.getD j 0).sum
        let aggregate_public_keys : List Point :=
          ring'.map (clsagAggPub H nr nc ring' key_images)
        let aggregate_key_image : Point := clsagAggImg H nr nc ring' key_images
        let pfx : List ℕ := clsagChallengeInput nr nc ring' message
        let seed : List ℕ :=
          compress (a * G) ++ compress (a * base_key_hashed_to_point)
        let stepBytes : Scalar → ℕ → List ℕ := fun c i =>
          compress (rs.getD i 0 * G + c * aggregate_public_keys.getD i 0) ++
          compress (rs.getD i 0 *
              H.toPoint (compress ((ring'.getD i []).getD 0 0)) +
            c * aggregate_key_image)
        let hs0 := (List.replicate nr pfx).set ((secret_index + 1) % nr) (pfx ++ seed)
        let cs0 := (List.replicate nr (0 : Scalar)).set ((secret_index + 1) % nr)
          (H.toScalar (pfx ++ seed))
        let cs := (fsLoop H stepBytes nr secret_index nr
          ((secret_index + 1) % nr) hs0 cs0).2
        some { challenge := cs.getD 0 0
               responses := rs.set secret_index
                 (a - cs.getD secret_index 0 * aggregate_private_key)
               ring := ring'
               key_images := key_images }
      else none

/-- `CLSAG::verify`.  Panic sites modelled by `none`: `ring[0]` on an empty
ring; `ring[i][j]` / `key_images[j]` in the aggregation and
`responses[i]` / `ring[i][0]` in the loop (the latter makes `nc = 0`
always panic, since row 0 is then empty). -/
def CLSAG.verify (H : HashFn) (signature : CLSAG) (message : List ℕ) :
    Option Bool :=
  if signature.ring = [] then none
  else
    let nr := signature.ring.length
    let nc := (signature.ring.getD 0 []).length
    if 1 ≤ nc ∧ (∀ row ∈ signature.ring, nc ≤ row.length) ∧
        nc ≤ signature.key_images.length ∧ nr ≤ signature.responses.length then
      let aggregate_public_keys : List Point :=
        signature.ring.map (clsagAggPub H nr nc signature.ring signature.key_images)
      let aggregate_key_image : Point :=
        clsagAggImg H nr nc signature.ring signature.key_images
      let pfx : List ℕ := clsagChallengeInput nr nc signature.ring message
      some (decide (signature.challenge = (List.range nr).foldl
        (fun c i =>
          H.toScalar (pfx ++
            (compress (signature.responses.getD i 0 * G +
              c * aggregate_public_keys.getD i 0) ++
            compress (signature.responses.getD i 0 *
                H.toPoint (compress ((signature.ring.getD i []).getD 0 0)) +
              c * aggregate_key_image))))
        signature.challenge))
    else none

/-- `CLSAG::link`: compares `key_images[0]` of both signatures
(panics, modelled `none`, when either image list is empty). -/
def CLSAG.link (signature_1 signature_2 : CLSAG) : Option Bool :=
  match signature_1.key_images[0]?, signature_2.key_images[0]? with
  | some x, some y => some (decide (x = y))
  | _, _ => none

/-- Modelled from the spec (§4.4): the byte string
`"CSLAG_" ‖ decimal(j) ‖ T ‖ K`, with the decimal index unpadded,
`T` the row-major compressed ring and `K` the compressed key images.  Used
only to compare the source's hash inputs against the spec's words. -/
def clsagMuInputSpec (j : ℕ) (T K : List ℕ) : List ℕ :=
  strBytes "CSLAG_" ++ (Nat.toDigits 10 j).map Char.toNat ++ T ++ K

/-- Modelled from the spec (§4.4): the challenge-chain seed
`"CSLAG_c" ‖ T ‖ message`. -/
def clsagChallengeInputSpec (T message : List ℕ) : List ℕ :=
  strBytes "CSLAG_c" ++ T ++ message

/-- A concrete 64-byte hash choice for executable checks. -/
def testHash : HashFn where
  toScalar bs := ((bs.foldl (fun a b => a + b) 7 : ℕ) : Scalar)
  toPoint bs := ((bs.foldl (fun a b => a * 31 + b) 3 : ℕ) : Point)

/-- A concrete CSPRNG stream for executable checks. -/
def testRng : ℕ → Scalar := fun i => ((2 * i + 5 : ℕ) : Scalar)

/-! ## Generic lemmas about the Fiat-Shamir loop -/

theorem L_eq : L = 2 ^ 252 + 27742317777372353535851937790883648493 := by
  norm_num [L]


theorem getD_set_self {α : Type} {l : List α} {i : ℕ} (h : i < l.length) (a d : α) :
    (l.set i a).getD i d = a := by
  rw [List.getD_eq_getElem?_getD, List.getElem?_set_self h]
  rfl

theorem getD_set_ne {α : Type} {l : List α} {i j : ℕ} (h : i ≠ j) (a d : α) :
    (l.set i a).getD j d = l.getD j d := by
  rw [List.getD_eq_getElem?_getD, List.getElem?_set_ne h, ← List.getD_eq_getElem?_getD]

theorem getD_replicate {α : Type} {n j : ℕ} (h : j < n) (a d : α) :
    (List.replicate n a).getD j d = a := by
  rw [List.getD_eq_getElem?_getD, List.getElem?_replicate, if_pos h]
  rfl

/-- The ring slots `(π + u) % n`, `u ∈ [1, n]`, are pairwise distinct. -/
theorem slot_inj {n π : ℕ} (hn : 0 < n) {u v : ℕ} (hu1 : 1 ≤ u) (hun : u ≤ n)
    (hv1 : 1 ≤ v) (hvn : v ≤ n) (h : (π + u) % n = (π + v) % n) : u = v := by
  have h2 : u ≡ v [MOD n] := Nat.ModEq.add_left_cancel' π h
  have h3 : u % n = v % n := h2
  rcases eq_or_lt_of_le hun with rfl | hu
  · rcases eq_or_lt_of_le hvn with rfl | hv
    · rfl
    · rw [Nat.mod_self, Nat.mod_eq_of_lt hv] at h3
      omega
  · rcases eq_or_lt_of_le hvn with rfl | hv
    · rw [Nat.mod_self, Nat.mod_eq_of_lt hu] at h3
      omega
    · rwa [Nat.mod_eq_of_lt hu, Nat.mod_eq_of_lt hv] at h3

theorem succ_slot (n π x : ℕ) : ((π + x) % n + 1) % n = (π + (x + 1)) % n := by
  rw [Nat.mod_add_mod, Nat.add_assoc]

/-- The loop's break condition holds at iteration `m` (current index
`(π + m) % n`) exactly when `m = n - 1`. -/
theorem break_iff {n π : ℕ} (hn : 2 ≤ n) (hπ : π < n) {m : ℕ} (hm1 : 1 ≤ m)
    (hm : m ≤ n - 1) :
    ((1 ≤ π ∧ (π + m) % n = (π - 1) % n) ∨ (π = 0 ∧ (π + m) % n = n - 1)) ↔
      m = n - 1 := by
  constructor
  · rintro (⟨hπ1, he⟩ | ⟨rfl, he⟩)
    · have h1 : (π - 1) % n = (π + (n - 1)) % n := by
        rw [show π + (n - 1) = (π - 1) + n by omega, Nat.add_mod_right]
      rw [h1] at he
      exact slot_inj (by omega) hm1 (by omega) (by omega) (by omega) he
    · rw [Nat.zero_add, Nat.mod_eq_of_lt (by omega)] at he
      omega
  · rintro rfl
    by_cases hπ0 : π = 0
    · subst hπ0
      right
      exact ⟨rfl, by rw [Nat.zero_add, Nat.mod_eq_of_lt (by omega)]⟩
    · left
      refine ⟨by omega, ?_⟩
      rw [show π + (n - 1) = (π - 1) + n by omega, Nat.add_mod_right]

/-- Invariant of the signing loop: entering the iteration at index
`(π + m) % n` with the first `m` challenge slots holding the ideal sequence
and the not-yet-touched hashers still holding the forked prefix, the final
challenge vector holds the whole ideal sequence. -/
theorem fsLoop_inv (H : HashFn) (stepBytes : Scalar → ℕ → List ℕ)
    (pfx seed : List ℕ) {n π : ℕ} (hn : 2 ≤ n) (hπ : π < n) :
    ∀ (fuel m : ℕ) (hs : List (List ℕ)) (cs : List Scalar),
      1 ≤ m → m ≤ n - 1 → n - m ≤ fuel →
      cs.length = n → hs.length = n →
      (∀ u, 1 ≤ u → u ≤ m →
        cs.getD ((π + u) % n) 0 = csSeq H stepBytes pfx n π seed (u - 1)) →
      (∀ u, m + 1 ≤ u → u ≤ n → hs.getD ((π + u) % n) [] = pfx) →
      ∀ u, 1 ≤ u → u ≤ n →
        (fsLoop H stepBytes n π fuel ((π + m) % n) hs cs).2.getD ((π + u) % n) 0 =
          csSeq H stepBytes pfx n π seed (u - 1) := by
  intro fuel
  induction fuel with
  | zero => intro m hs cs hm1 hm hfuel; omega
  | succ fuel ih =>
    intro m hs cs hm1 hm hfuel hcl hhl hcs hhs u hu1 hun
    have hn0 : 0 < n := by omega
    have hmod : (π + m) % n % n = (π + m) % n := Nat.mod_mod_of_dvd _ dvd_rfl
    have hsucc : ((π + m) % n + 1) % n = (π + (m + 1)) % n := succ_slot n π m
    have hread_c : cs.getD ((π + m) % n) 0 = csSeq H stepBytes pfx n π seed (m - 1) :=
      hcs m hm1 le_rfl
    have hread_h : hs.getD ((π + (m + 1)) % n) [] = pfx := hhs (m + 1) le_rfl (by omega)
    have hCSm : H.toScalar (pfx ++
        stepBytes (csSeq H stepBytes pfx n π seed (m - 1)) ((π + m) % n)) =
        csSeq H stepBytes pfx n π seed m := by
      conv_rhs => rw [show m = (m - 1) + 1 by omega]
      rw [csSeq, show π + 1 + (m - 1) = π + m by omega]
    rw [fsLoop]
    simp only [hmod, hsucc, hread_c, hread_h, hCSm]
    by_cases hbr : m = n - 1
    · rw [if_pos ((break_iff hn hπ hm1 hm).mpr hbr)]
      dsimp only
      by_cases hum : u = m + 1
      · subst hum
        rw [getD_set_self (by rw [hcl]; exact Nat.mod_lt _ hn0)]
        congr 1
      · rw [getD_set_ne (fun he =>
          hum (slot_inj hn0 hu1 hun (by omega) (by omega) he.symm))]
        exact hcs u hu1 (by omega)
    · rw [if_neg (fun hc => hbr ((break_iff hn hπ hm1 hm).mp hc))]
      exact ih (m + 1) _ _ (by omega) (by omega) (by omega)
        (by rw [List.length_set, hcl]) (by rw [List.length_set, hhl])
        (fun u' h1 h2 => by
          by_cases hu' : u' = m + 1
          · subst hu'
            rw [getD_set_self (by rw [hcl]; exact Nat.mod_lt _ hn0)]
            simp
          · rw [getD_set_ne (fun he =>
              hu' (slot_inj hn0 h1 (by omega) (by omega) (by omega) he.symm))]
            exact hcs u' h1 (by omega))
        (fun u' h1 h2 => by
          rw [getD_set_ne (fun he =>
            (by omega : u' ≠ m + 1) (slot_inj hn0 (by omega) h2 (by omega) (by omega) he.symm))]
          exact hhs u' (by omega) h2)
        u hu1 hun

/-- Entering the loop as the signing functions do (start index `(π+1) % n`,
fuel `n`, slot `(π+1) % n` seeded), slot `(π + u) % n` of the final
challenge vector holds `csSeq (u - 1)`. -/
theorem fsLoop_spec (H : HashFn) (stepBytes : Scalar → ℕ → List ℕ)
    (pfx seed : List ℕ) {n π : ℕ} (hn : 2 ≤ n) (hπ : π < n)
    (u : ℕ) (hu1 : 1 ≤ u) (hun : u ≤ n) :
    (fsLoop H stepBytes n π n ((π + 1) % n)
      ((List.replicate n pfx).set ((π + 1) % n) (pfx ++ seed))
      ((List.replicate n (0 : Scalar)).set ((π + 1) % n)
        (H.toScalar (pfx ++ seed)))).2.getD ((π + u) % n) 0 =
    csSeq H stepBytes pfx n π seed (u - 1) := by
  have hn0 : 0 < n := by omega
  refine fsLoop_inv H stepBytes pfx seed hn hπ n 1 _ _ le_rfl (by omega) (by omega)
    (by rw [List.length_set, List.length_replicate])
    (by rw [List.length_set, List.length_replicate]) ?_ ?_ u hu1 hun
  · intro u' h1 h2
    have : u' = 1 := by omega
    subst this
    rw [getD_set_self (by rw [List.length_replicate]; exact Nat.mod_lt _ hn0)]
    rfl
  · intro u' h1 h2
    rw [getD_set_ne (fun he =>
      (by omega : u' ≠ 1) (slot_inj hn0 (by omega) h2 (by omega) (by omega) he.symm))]
    exact getD_replicate (Nat.mod_lt _ hn0) _ _

/-- Slot 0 of the final challenge vector (the emitted `challenge`). -/
theorem fsLoop_challenge (H : HashFn) (stepBytes : Scalar → ℕ → List ℕ)
    (pfx seed : List ℕ) {n π : ℕ} (hn : 2 ≤ n) (hπ : π < n) :
    (fsLoop H stepBytes n π n ((π + 1) % n)
      ((List.replicate n pfx).set ((π + 1) % n) (pfx ++ seed))
      ((List.replicate n (0 : Scalar)).set ((π + 1) % n)
        (H.toScalar (pfx ++ seed)))).2.getD 0 0 =
    csSeq H stepBytes pfx n π seed (n - π - 1) := by
  have h := fsLoop_spec H stepBytes pfx seed hn hπ (n - π) (by omega) (by omega)
  rw [show (π + (n - π)) % n = 0 by rw [show π + (n - π) = n by omega, Nat.mod_self]] at h
  exact h

/-- Slot `π` of the final challenge vector (used by the gap closure). -/
theorem fsLoop_at_secret (H : HashFn) (stepBytes : Scalar → ℕ → List ℕ)
    (pfx seed : List ℕ) {n π : ℕ} (hn : 2 ≤ n) (hπ : π < n) :
    (fsLoop H stepBytes n π n ((π + 1) % n)
      ((List.replicate n pfx).set ((π + 1) % n) (pfx ++ seed))
      ((List.replicate n (0 : Scalar)).set ((π + 1) % n)
        (H.toScalar (pfx ++ seed)))).2.getD π 0 =
    csSeq H stepBytes pfx n π seed (n - 1) := by
  have h := fsLoop_spec H stepBytes pfx seed hn hπ n (by omega) le_rfl
  rw [Nat.add_mod_right, Nat.mod_eq_of_lt hπ] at h
  exact h

/-- The verifier's chain position: row `t` of the verification loop reads
the challenge `csSeq ((t + (n - 1 - π)) % n)` and (away from the secret
index) produces the next one. -/
theorem csSeq_verify_step (H : HashFn) (stepBytes : Scalar → ℕ → List ℕ)
    (pfx seed : List ℕ) {n π : ℕ} (hπ : π < n) {t : ℕ} (ht : t < n)
    (hne : t ≠ π) :
    H.toScalar (pfx ++ stepBytes
      (csSeq H stepBytes pfx n π seed ((t + (n - 1 - π)) % n)) t) =
    csSeq H stepBytes pfx n π seed ((t + 1 + (n - 1 - π)) % n) := by
  rcases lt_or_gt_of_ne hne with hlt | hgt
  · have hq : (t + (n - 1 - π)) % n = t + (n - 1 - π) := Nat.mod_eq_of_lt (by omega)
    have harg : (t + 1 + (n - 1 - π)) % n = t + (n - 1 - π) + 1 := by
      rw [show t + 1 + (n - 1 - π) = t + (n - 1 - π) + 1 by omega]
      exact Nat.mod_eq_of_lt (by omega)
    rw [hq, harg, csSeq,
      show (π + 1 + (t + (n - 1 - π))) % n = t by
        rw [show π + 1 + (t + (n - 1 - π)) = t + n by omega, Nat.add_mod_right,
          Nat.mod_eq_of_lt ht]]
  · have hq : (t + (n - 1 - π)) % n = t - π - 1 := by
      rw [show t + (n - 1 - π) = (t - π - 1) + n by omega, Nat.add_mod_right]
      exact Nat.mod_eq_of_lt (by omega)
    have harg : (t + 1 + (n - 1 - π)) % n = (t - π - 1) + 1 := by
      rw [show t + 1 + (n - 1 - π) = (t - π - 1 + 1) + n by omega, Nat.add_mod_right]
      exact Nat.mod_eq_of_lt (by omega)
    rw [hq, harg, csSeq,
      show (π + 1 + (t - π - 1)) % n = t by
        rw [show π + 1 + (t - π - 1) = t by omega]
        exact Nat.mod_eq_of_lt ht]

/-- Running a fold over `List.range n` along a sequence of intermediate
values. -/
theorem foldl_range_spec {α : Type} (g : α → ℕ → α) (V : ℕ → α) (n : ℕ)
    (h : ∀ t, t < n → g (V t) t = V (t + 1)) :
    (List.range n).foldl g (V 0) = V n := by
  induction n with
  | zero => rfl
  | succ k ih =>
    rw [List.range_succ, List.foldl_append, ih (fun t ht => h t (by omega))]
    exact h k (by omega)

/-- The verification chain closes: if the verifier's byte function
`stepBytes'` agrees with the signer's `stepBytes` away from the secret
index and reproduces the seed bytes at the secret index, then folding the
challenge hash over all `n` rows starting from the emitted challenge
`csSeq (n - π - 1)` returns to it. -/
theorem chain_closes (H : HashFn) (stepBytes stepBytes' : Scalar → ℕ → List ℕ)
    (pfx seed : List ℕ) {n π : ℕ} (hn : 2 ≤ n) (hπ : π < n)
    (hstep : ∀ t, t < n → t ≠ π →
      stepBytes' (csSeq H stepBytes pfx n π seed ((t + (n - 1 - π)) % n)) t =
      stepBytes (csSeq H stepBytes pfx n π seed ((t + (n - 1 - π)) % n)) t)
    (hgap : stepBytes' (csSeq H stepBytes pfx n π seed (n - 1)) π = seed) :
    List.foldl (fun c t => H.toScalar (pfx ++ stepBytes' c t))
      (csSeq H stepBytes pfx n π seed (n - π - 1)) (List.range n) =
    csSeq H stepBytes pfx n π seed (n - π - 1) := by
  have hV0 : (0 + (n - 1 - π)) % n = n - π - 1 := by
    rw [Nat.zero_add, Nat.mod_eq_of_lt (by omega)]
    omega
  have hVn : (n + (n - 1 - π)) % n = n - π - 1 := by
    rw [show n + (n - 1 - π) = (n - 1 - π) + n by omega, Nat.add_mod_right,
      Nat.mod_eq_of_lt (by omega)]
    omega
  calc
    List.foldl (fun c t => H.toScalar (pfx ++ stepBytes' c t))
        (csSeq H stepBytes pfx n π seed (n - π - 1)) (List.range n) =
        List.foldl (fun c t => H.toScalar (pfx ++ stepBytes' c t))
          (csSeq H stepBytes pfx n π seed ((0 + (n - 1 - π)) % n))
          (List.range n) := by
      rw [hV0]
    _ = csSeq H stepBytes pfx n π seed ((n + (n - 1 - π)) % n) := by
      refine foldl_range_spec _
        (fun t => csSeq H stepBytes pfx n π seed ((t + (n - 1 - π)) % n)) n ?_
      intro t ht
      by_cases htπ : t = π
      · subst htπ
        dsimp only
        have hq : (t + (n - 1 - t)) % n = n - 1 := by
          rw [show t + (n - 1 - t) = n - 1 by omega]
          exact Nat.mod_eq_of_lt (by omega)
        have hq1 : (t + 1 + (n - 1 - t)) % n = 0 := by
          rw [show t + 1 + (n - 1 - t) = n by omega, Nat.mod_self]
        rw [hq, hq1, hgap]
        rfl
      · dsimp only
        rw [hstep t ht htπ]
        exact csSeq_verify_step H stepBytes pfx seed hπ ht htπ
    _ = csSeq H stepBytes pfx n π seed (n - π - 1) := by rw [hVn]

theorem getD_map_range {α : Type} (f : ℕ → α) (d : α) {m j : ℕ} (h : j < m) :
    ((List.range m).map f).getD j d = f j := by
  rw [List.getD_eq_getElem _ _ (by simpa using h), List.getElem_map,
    List.getElem_range]

theorem getD_map_lt {α β : Type} (f : α → β) (l : List α) (d : β) (d' : α)
    {j : ℕ} (h : j < l.length) : (l.map f).getD j d = f (l.getD j d') := by
  rw [List.getD_eq_getElem _ _ (by simpa using h), List.getElem_map,
    List.getD_eq_getElem _ _ h]

theorem getD_insertIdx_self {α : Type} (l : List α) (x : α) {π : ℕ}
    (h : π ≤ l.length) (d : α) : (List.insertIdx π x l).getD π d = x := by
  rw [List.getD_eq_getElem _ _ (by rw [List.length_insertIdx π l h]; omega)]
  exact List.getElem_insertIdx_self l x π h

theorem getD_insertIdx_zero_of_pos {α : Type} (l : List α) (x : α) {π : ℕ}
    (h0 : 0 < π) (hl : 0 < l.length) (d : α) :
    (List.insertIdx π x l).getD 0 d = l.getD 0 d := by
  by_cases hπl : π ≤ l.length
  · rw [List.getD_eq_getElem _ _ (by rw [List.length_insertIdx π l hπl]; omega),
      List.getElem_insertIdx_of_lt l x π 0 h0 hl, List.getD_eq_getElem _ _ hl]
  · rw [List.insertIdx_of_length_lt l x π (by omega)]

/-! ## SAG roundtrip -/

/-- A signature produced by `SAG::sign` on a non-empty decoy list verifies. -/
theorem sag_verify_sign (H : HashFn) (k : Scalar) (decoys : List Point)
    (π : ℕ) (message : List ℕ) (rng : ℕ → Scalar)
    (hd : decoys ≠ []) (hπ : π ≤ decoys.length) :
    (SAG.sign H k decoys π message rng).bind (fun s => SAG.verify H s message) =
      some true := by
  have hd0 : 0 < decoys.length := List.length_pos.mpr hd
  have hn : 2 ≤ decoys.length + 1 := by omega
  have hπn : π < decoys.length + 1 := by omega
  rw [SAG.sign, if_pos hπ]
  dsimp only [Option.bind]
  rw [SAG.verify]
  dsimp only
  have hring_len : (decoys.insertIdx π (k * G)).length = decoys.length + 1 :=
    List.length_insertIdx π decoys hπ
  rw [hring_len, if_pos (by simp [List.length_set] : decoys.length + 1 ≤ _)]
  set n := decoys.length + 1 with hnn
  set ring2 : List Point := List.insertIdx π (k * G) decoys with hring2
  set rs0 : List Scalar := List.map (fun t => rng (t + 1)) (List.range n) with hrs0
  set stepB : Scalar → ℕ → List ℕ :=
    fun c i => compress (rs0.getD i 0 * G + c * ring2.getD i 0) with hstepB
  set pfxB : List ℕ := ptBytes ring2 ++ message with hpfxB
  set seedB : List ℕ := compress (rng 0 * G) with hseedB
  have hrs0_len : rs0.length = n := by
    rw [hrs0, List.length_map, List.length_range]
  have hring2_len : ring2.length = n := by
    rw [hring2, List.length_insertIdx π decoys hπ]
  rw [fsLoop_challenge H stepB pfxB seedB hn hπn,
    fsLoop_at_secret H stepB pfxB seedB hn hπn]
  refine congrArg some ?_
  rw [decide_eq_true_eq]
  refine (chain_closes H stepB
    (fun c j => compress ((rs0.set π
      (rng 0 - csSeq H stepB pfxB n π seedB (n - 1) * k)).getD j 0 * G +
      c * ring2.getD j 0)) pfxB seedB hn hπn ?_ ?_).symm
  · intro t ht htπ
    dsimp only
    rw [getD_set_ne (fun he => htπ he.symm), hstepB]
  · dsimp only
    rw [getD_set_self (by rw [hrs0_len]; omega) _ _]
    have h2 : ring2.getD π 0 = k * G := by
      rw [hring2, List.getD_eq_getElem _ 0 (by
        rw [List.length_insertIdx π decoys hπ]; omega)]
      exact List.getElem_insertIdx_self decoys (k * G) π hπ
    rw [h2]
    have alg : ∀ c : Scalar, (rng 0 - c * k) * G + c * (k * G) = rng 0 * G :=
      fun c => by ring
    rw [alg, hseedB]

/-! ## BLSAG roundtrip -/

/-- A signature produced by `BLSAG::sign` on a non-empty decoy list
verifies. -/
theorem blsag_verify_sign (H : HashFn) (k : Scalar) (decoys : List Point)
    (π : ℕ) (message : List ℕ) (rng : ℕ → Scalar)
    (hd : decoys ≠ []) (hπ : π ≤ decoys.length) :
    (BLSAG.sign H k decoys π message rng).bind
      (fun s => BLSAG.verify H s message) = some true := by
  have hd0 : 0 < decoys.length := List.length_pos.mpr hd
  have hn : 2 ≤ decoys.length + 1 := by omega
  have hπn : π < decoys.length + 1 := by omega
  rw [BLSAG.sign, if_pos hπ]
  dsimp only [Option.bind]
  rw [BLSAG.verify]
  dsimp only
  have hring_len : (decoys.insertIdx π (k * G)).length = decoys.length + 1 :=
    List.length_insertIdx π decoys hπ
  rw [hring_len, if_pos (by simp [List.length_set] : decoys.length + 1 ≤ _)]
  set n := decoys.length + 1 with hnn
  set ring2 : List Point := List.insertIdx π (k * G) decoys with hring2
  set rs0 : List Scalar := List.map (fun t => rng (t + 1)) (List.range n) with hrs0
  set KI : Point := BLSAG.generate_key_image H k with hKI
  set stepB : Scalar → ℕ → List ℕ := fun c i =>
    compress (rs0.getD i 0 * G + c * ring2.getD i 0) ++
    compress (rs0.getD i 0 * H.toPoint (compress (ring2.getD i 0)) + c * KI)
    with hstepB
  set seedB : List ℕ := compress (rng 0 * G) ++
    compress (rng 0 * H.toPoint (compress (k * G))) with hseedB
  have hrs0_len : rs0.length = n := by
    rw [hrs0, List.length_map, List.length_range]
  rw [fsLoop_challenge H stepB message seedB hn hπn,
    fsLoop_at_secret H stepB message seedB hn hπn]
  refine congrArg some ?_
  rw [decide_eq_true_eq]
  refine (chain_closes H stepB
    (fun c j =>
      compress ((rs0.set π
        (rng 0 - csSeq H stepB message n π seedB (n - 1) * k)).getD j 0 * G +
        c * ring2.getD j 0) ++
      compress ((rs0.set π
        (rng 0 - csSeq H stepB message n π seedB (n - 1) * k)).getD j 0 *
          H.toPoint (compress (ring2.getD j 0)) + c * KI))
    message seedB hn hπn ?_ ?_).symm
  · intro t ht htπ
    dsimp only
    rw [getD_set_ne (fun he => htπ he.symm), hstepB]
  · dsimp only
    rw [getD_set_self (by rw [hrs0_len]; omega) _ _]
    have h2 : ring2.getD π 0 = k * G := by
      rw [hring2, List.getD_eq_getElem _ 0 (by
        rw [List.length_insertIdx π decoys hπ]; omega)]
      exact List.getElem_insertIdx_self decoys (k * G) π hπ
    rw [h2,
      show KI = k * H.toPoint (compress (k * G)) from hKI.trans rfl]
    have alg1 : ∀ c : Scalar, (rng 0 - c * k) * G + c * (k * G) = rng 0 * G :=
      fun c => by ring
    have alg2 : ∀ c : Scalar,
        (rng 0 - c * k) * H.toPoint (compress (k * G)) +
          c * (k * H.toPoint (compress (k * G))) =
        rng 0 * H.toPoint (compress (k * G)) := fun c => by ring
    rw [alg1, alg2, hseedB]

/-! ## MLSAG roundtrip -/

/-- A signature produced by `MLSAG::sign` on a non-empty decoy list with
rectangular rows of width `|ks| ≥ 1` verifies, for every RNG draw
`rand_u32` of the internal secret index. -/
theorem mlsag_verify_sign (H : HashFn) (ks : List Scalar)
    (decoys : List (List Point)) (message : List ℕ) (rand_u32 : ℕ)
    (rng : ℕ → Scalar) (hd : decoys ≠ [])
    (hw : ∀ row ∈ decoys, row.length = ks.length) (_hk : 1 ≤ ks.length) :
    (MLSAG.sign H ks decoys message rand_u32 rng).bind
      (fun s => MLSAG.verify H s message) = some true := by
  have hd0 : 0 < decoys.length := List.length_pos.mpr hd
  have hn : 2 ≤ decoys.length + 1 := by omega
  have hnc : (decoys.getD 0 []).length = ks.length := by
    refine hw _ ?_
    rw [List.getD_eq_getElem _ _ hd0]
    exact List.getElem_mem _
  have hp : rand_u32 % (decoys.length + 1) < decoys.length + 1 :=
    Nat.mod_lt _ (by omega)
  have hp' : rand_u32 % (decoys.length + 1) ≤ decoys.length := by omega
  have hr2_len : (List.insertIdx (rand_u32 % (decoys.length + 1))
      (List.map (fun k => k * G) ks) decoys).length = decoys.length + 1 :=
    List.length_insertIdx _ _ hp'
  have hr2ne : List.insertIdx (rand_u32 % (decoys.length + 1))
      (List.map (fun k => k * G) ks) decoys ≠ [] := by
    intro h
    rw [h] at hr2_len
    simp at hr2_len
  rw [MLSAG.sign]
  dsimp only
  split_ifs with h1 h2
  · exact absurd h1 hd
  · dsimp only [Option.bind]
    rw [MLSAG.verify]
    dsimp only
    rw [hnc]
    have hnc' : ((List.insertIdx (rand_u32 % (decoys.length + 1))
        (List.map (fun k => k * G) ks) decoys).getD 0 []).length = ks.length := by
      by_cases h0 : rand_u32 % (decoys.length + 1) = 0
      · rw [h0, List.insertIdx_zero]
        simp
      · rw [getD_insertIdx_zero_of_pos _ _ (by omega) hd0]
        exact hnc
    rw [hr2_len, hnc']
    split_ifs with h3 h4
    · exact absurd h3 hr2ne
    · -- main branch: everything well-formed
      set m := ks.length with hm
      set n := decoys.length + 1 with hnn
      set p := rand_u32 % n with hpp
      set kP : List Point := List.map (fun k => k * G) ks with hkP
      set KIs : List Point := MLSAG.generate_key_image H ks with hKIs
      set ring2 : List (List Point) := List.insertIdx p kP decoys with hring2
      set a0 : List Scalar := List.map rng (List.range m) with ha0
      set rs0 : List (List Scalar) := List.map (fun i =>
        List.map (fun j => rng (m + i * m + j)) (List.range m))
        (List.range n) with hrs0
      set stepB : Scalar → ℕ → List ℕ := fun c i =>
        (List.map (fun j =>
          compress ((rs0.getD i []).getD j 0 * G +
            c * (ring2.getD i []).getD j 0) ++
          compress ((rs0.getD i []).getD j 0 *
              H.toPoint (compress ((ring2.getD i []).getD j 0)) +
            c * KIs.getD j 0)) (List.range m)).flatten with hstepB
      set seedB : List ℕ := (List.map (fun j =>
        compress (a0.getD j 0 * G) ++
        compress (a0.getD j 0 * H.toPoint (compress (kP.getD j 0))))
        (List.range m)).flatten with hseedB
      have hrs0_len : rs0.length = n := by
        rw [hrs0, List.length_map, List.length_range]
      rw [fsLoop_challenge H stepB message seedB hn hp,
        fsLoop_at_secret H stepB message seedB hn hp]
      refine congrArg some ?_
      rw [decide_eq_true_eq]
      refine (chain_closes H stepB (fun c i =>
        (List.map (fun j =>
          compress (((rs0.set p (List.map (fun j => a0.getD j 0 -
              csSeq H stepB message n p seedB (n - 1) * ks.getD j 0)
              (List.range m))).getD i []).getD j 0 * G +
            c * (ring2.getD i []).getD j 0) ++
          compress (((rs0.set p (List.map (fun j => a0.getD j 0 -
              csSeq H stepB message n p seedB (n - 1) * ks.getD j 0)
              (List.range m))).getD i []).getD j 0 *
              H.toPoint (compress ((ring2.getD i []).getD j 0)) +
            c * KIs.getD j 0)) (List.range m)).flatten)
        message seedB hn hp ?_ ?_).symm
      · intro t ht htp
        dsimp only
        rw [getD_set_ne (fun he => htp he.symm), hstepB]
      · beta_reduce
        rw [getD_set_self (by rw [hrs0_len]; omega) _ _]
        have hr2p : ring2.getD p [] = kP := by
          rw [hring2]
          exact getD_insertIdx_self decoys kP hp' []
        rw [hr2p, hseedB]
        congr 1
        refine List.map_congr_left ?_
        intro j hj
        have hjm : j < m := List.mem_range.mp hj
        rw [getD_map_range _ _ hjm]
        have hKIj : KIs.getD j 0 =
            ks.getD j 0 * H.toPoint (compress (kP.getD j 0)) := by
          rw [hKIs, MLSAG.generate_key_image]
          rw [getD_map_range _ _ (by omega : j < ks.length), ← hkP]
        have hkPj : kP.getD j 0 = ks.getD j 0 * G := by
          rw [hkP]
          exact getD_map_lt (fun k => k * G) ks 0 0 (by omega)
        rw [hKIj, hkPj]
        have alg1 : ∀ x y c : Scalar, (x - c * y) * G + c * (y * G) = x * G :=
          fun x y c => by ring
        have alg2 : ∀ x y c h : Scalar, (x - c * y) * h + c * (y * h) = x * h :=
          fun x y c h => by ring
        rw [alg1, alg2]
    · -- the verifier's structural guard holds for a signed record
      refine absurd (Or.inr ⟨by simp [List.length_set], ?_, ?_, ?_⟩) h4
      · intro row hrow
        rcases List.mem_or_eq_of_mem_set (List.mem_of_mem_take hrow) with hmem | heq
        · obtain ⟨i, hi, rfl⟩ := List.mem_map.mp hmem
          simp
        · subst heq
          simp
      · intro row hrow
        rcases (List.mem_insertIdx hp').mp hrow with heq | hmem
        · subst heq
          simp
        · exact le_of_eq (hw row hmem).symm
      · simp [MLSAG.generate_key_image]
  · -- the signer's structural guard holds under the preconditions
    refine absurd ⟨le_of_eq hnc, fun row hrow => ?_⟩ h2
    rw [hnc]
    exact le_of_eq (hw row hrow).symm

/-! ## CLSAG roundtrip -/

/-- A signature produced by `CLSAG::sign` on a non-empty decoy list with
rectangular rows of width `|ks| ≥ 1` verifies. -/
theorem clsag_verify_sign (H : HashFn) (ks : List Scalar)
    (decoys : List (List Point)) (π : ℕ) (message : List ℕ)
    (rng : ℕ → Scalar) (hd : decoys ≠ [])
    (hw : ∀ row ∈ decoys, row.length = ks.length) (hk : 1 ≤ ks.length)
    (hπ : π ≤ decoys.length) :
    (CLSAG.sign H ks decoys π message rng).bind
      (fun s => CLSAG.verify H s message) = some true := by
  have hd0 : 0 < decoys.length := List.length_pos.mpr hd
  have hn : 2 ≤ decoys.length + 1 := by omega
  have hπn : π < decoys.length + 1 := by omega
  have hks : ks ≠ [] := by
    intro h
    rw [h] at hk
    simp at hk
  have hnc : (decoys.getD 0 []).length = ks.length := by
    refine hw _ ?_
    rw [List.getD_eq_getElem _ _ hd0]
    exact List.getElem_mem _
  have hr2_len : (List.insertIdx π (List.map (fun k => k * G) ks)
      decoys).length = decoys.length + 1 := List.length_insertIdx _ _ hπ
  have hr2ne : List.insertIdx π (List.map (fun k => k * G) ks) decoys ≠ [] := by
    intro h
    rw [h] at hr2_len
    simp at hr2_len
  have hgen : CLSAG.generate_key_image H ks = some (List.map
      (fun k => k * H.toPoint (compress
        ((List.map (fun k => k * G) ks).getD 0 0))) ks) := by
    rw [CLSAG.generate_key_image, if_neg hks]
  rw [CLSAG.sign]
  dsimp only
  rw [hgen]
  dsimp only
  split_ifs with h1 h2
  · exact absurd h1 hd
  · dsimp only [Option.bind]
    rw [CLSAG.verify]
    dsimp only
    rw [hnc]
    have hnc' : ((List.insertIdx π (List.map (fun k => k * G) ks)
        decoys).getD 0 []).length = ks.length := by
      by_cases h0 : π = 0
      · rw [h0, List.insertIdx_zero]
        simp
      · rw [getD_insertIdx_zero_of_pos _ _ (by omega) hd0]
        exact hnc
    rw [hr2_len, hnc']
    split_ifs with h3 h4
    · exact absurd h3 hr2ne
    · -- main branch
      set m := ks.length with hm
      set n := decoys.length + 1 with hnn
      set kP : List Point := List.map (fun k => k * G) ks with hkP
      set KIs : List Point := List.map
        (fun k => k * H.toPoint (compress (kP.getD 0 0))) ks with hKIs
      set ring2 : List (List Point) := List.insertIdx π kP decoys with hring2
      set rs0 : List Scalar := List.map (fun t => rng (t + 1))
        (List.range n) with hrs0
      set APK : Scalar := ((List.range m).map
        (fun j => clsagMu H n m ring2 KIs j * ks.getD j 0)).sum with hAPK
      set APKs : List Point := List.map (clsagAggPub H n m ring2 KIs) ring2
        with hAPKs
      set AKI : Point := clsagAggImg H n m ring2 KIs with hAKI
      set pfxB : List ℕ := clsagChallengeInput n m ring2 message with hpfxB
      set seedB : List ℕ := compress (rng 0 * G) ++
        compress (rng 0 * H.toPoint (compress (kP.getD 0 0))) with hseedB
      set stepB : Scalar → ℕ → List ℕ := fun c i =>
        compress (rs0.getD i 0 * G + c * APKs.getD i 0) ++
        compress (rs0.getD i 0 *
            H.toPoint (compress ((ring2.getD i []).getD 0 0)) + c * AKI)
        with hstepB
      have hrs0_len : rs0.length = n := by
        rw [hrs0, List.length_map, List.length_range]
      rw [fsLoop_challenge H stepB pfxB seedB hn hπn,
        fsLoop_at_secret H stepB pfxB seedB hn hπn]
      refine congrArg some ?_
      rw [decide_eq_true_eq]
      refine (chain_closes H stepB (fun c i =>
        compress ((rs0.set π (rng 0 -
          csSeq H stepB pfxB n π seedB (n - 1) * APK)).getD i 0 * G +
          c * APKs.getD i 0) ++
        compress ((rs0.set π (rng 0 -
          csSeq H stepB pfxB n π seedB (n - 1) * APK)).getD i 0 *
            H.toPoint (compress ((ring2.getD i []).getD 0 0)) + c * AKI))
        pfxB seedB hn hπn ?_ ?_).symm
      · intro t ht htπ
        dsimp only
        rw [getD_set_ne (fun he => htπ he.symm), hstepB]
      · beta_reduce
        rw [getD_set_self (by rw [hrs0_len]; omega) _ _]
        have hr2π : ring2.getD π [] = kP := by
          rw [hring2]
          exact getD_insertIdx_self decoys kP hπ []
        have hAPKπ : APKs.getD π 0 = APK * G := by
          rw [hAPKs, getD_map_lt (clsagAggPub H n m ring2 KIs) ring2 0 []
            (by rw [hr2_len]; omega)]
          rw [hr2π, clsagAggPub, hAPK, ← List.sum_map_mul_right]
          refine congrArg List.sum (List.map_congr_left ?_)
          intro j hj
          rw [hkP, getD_map_lt (fun k => k * G) ks 0 0
            (by have := List.mem_range.mp hj; omega)]
          ring
        have hAKIv : AKI = APK * H.toPoint (compress (kP.getD 0 0)) := by
          rw [hAKI, clsagAggImg, hAPK, ← List.sum_map_mul_right]
          refine congrArg List.sum (List.map_congr_left ?_)
          intro j hj
          rw [hKIs, getD_map_lt
            (fun k => k * H.toPoint (compress (kP.getD 0 0))) ks 0 0
            (by have := List.mem_range.mp hj; omega)]
          ring
        rw [hAPKπ, hr2π, hAKIv, hseedB]
        have alg1 : ∀ x y c : Scalar, (x - c * y) * G + c * (y * G) = x * G :=
          fun x y c => by ring
        have alg2 : ∀ x y c h : Scalar,
            (x - c * y) * h + c * (y * h) = x * h := fun x y c h => by ring
        rw [alg1, alg2]
    · -- the verifier's structural guard holds for a signed record
      refine absurd ⟨hk, ?_, ?_, ?_⟩ h4
      · intro row hrow
        rcases (List.mem_insertIdx hπ).mp hrow with heq | hmem
        · subst heq
          simp
        · exact le_of_eq (hw row hmem).symm
      · simp
      · simp [List.length_set]
  · -- the signer's structural guard holds under the preconditions
    refine absurd ⟨?_, ?_, ?_, hπ⟩ h2
    · rw [hnc]
      exact hk
    · rw [hnc]
    · intro row hrow
      rw [hnc]
      exact le_of_eq (hw row hrow).symm

/-! ## Totality of the signing functions under the well-formedness
preconditions -/

theorem sag_sign_total (H : HashFn) (k : Scalar) (decoys : List Point)
    (π : ℕ) (message : List ℕ) (rng : ℕ → Scalar) (hπ : π ≤ decoys.length) :
    (SAG.sign H k decoys π message rng).isSome = true := by
  rw [SAG.sign, if_pos hπ]
  rfl

theorem blsag_sign_total (H : HashFn) (k : Scalar) (decoys : List Point)
    (π : ℕ) (message : List ℕ) (rng : ℕ → Scalar) (hπ : π ≤ decoys.length) :
    (BLSAG.sign H k decoys π message rng).isSome = true := by
  rw [BLSAG.sign, if_pos hπ]
  rfl

theorem mlsag_sign_total (H : HashFn) (ks : List Scalar)
    (decoys : List (List Point)) (message : List ℕ) (rand_u32 : ℕ)
    (rng : ℕ → Scalar) (hd : decoys ≠ [])
    (hw : ∀ row ∈ decoys, row.length = ks.length) :
    (MLSAG.sign H ks decoys message rand_u32 rng).isSome = true := by
  have hd0 : 0 < decoys.length := List.length_pos.mpr hd
  have hnc : (decoys.getD 0 []).length = ks.length := by
    refine hw _ ?_
    rw [List.getD_eq_getElem _ _ hd0]
    exact List.getElem_mem _
  rw [MLSAG.sign]
  dsimp only
  split_ifs with h1 h2
  · exact absurd h1 hd
  · rfl
  · refine absurd ⟨le_of_eq hnc, fun row hrow => ?_⟩ h2
    rw [hnc]
    exact le_of_eq (hw row hrow).symm

theorem clsag_sign_total (H : HashFn) (ks : List Scalar)
    (decoys : List (List Point)) (π : ℕ) (message : List ℕ)
    (rng : ℕ → Scalar) (hd : decoys ≠ [])
    (hw : ∀ row ∈ decoys, row.length = ks.length) (hk : 1 ≤ ks.length)
    (hπ : π ≤ decoys.length) :
    (CLSAG.sign H ks decoys π message rng).isSome = true := by
  have hd0 : 0 < decoys.length := List.length_pos.mpr hd
  have hks : ks ≠ [] := by
    intro h
    rw [h] at hk
    simp at hk
  have hnc : (decoys.getD 0 []).length = ks.length := by
    refine hw _ ?_
    rw [List.getD_eq_getElem _ _ hd0]
    exact List.getElem_mem _
  have hgen : CLSAG.generate_key_image H ks = some (List.map
      (fun k => k * H.toPoint (compress
        ((List.map (fun k => k * G) ks).getD 0 0))) ks) := by
    rw [CLSAG.generate_key_image, if_neg hks]
  rw [CLSAG.sign]
  dsimp only
  rw [hgen]
  dsimp only
  split_ifs with h1 h2
  · exact absurd h1 hd
  · rfl
  · refine absurd ⟨?_, ?_, ?_, hπ⟩ h2
    · rw [hnc]
      exact hk
    · rw [hnc]
    · intro row hrow
      rw [hnc]
      exact le_of_eq (hw row hrow).symm

/-! ## MLSAG linking: adjacent duplicates in the sorted image list -/

/-- In a `≤`-sorted list, an adjacent duplicate exists iff the list has any
duplicate at all. -/
theorem sorted_adjacent_dup : ∀ {l : List ℕ}, l.Pairwise (· ≤ ·) →
    (((l.zip (l.drop 1)).any fun p => decide (p.1 = p.2)) = true ↔ ¬ l.Nodup)
  | [], _ => by simp
  | [a], _ => by simp
  | a :: b :: t2, hs => by
    rw [List.pairwise_cons] at hs
    obtain ⟨ha, hs2⟩ := hs
    have ihs := sorted_adjacent_dup hs2
    simp only [List.drop_succ_cons, List.drop_zero] at ihs ⊢
    rw [List.zip_cons_cons, List.any_cons]
    dsimp only
    rw [Bool.or_eq_true, decide_eq_true_eq, List.nodup_cons]
    constructor
    · rintro (rfl | hrest)
      · intro hn
        exact hn.1 (List.mem_cons_self _ _)
      · intro hn
        exact (ihs.mp hrest) hn.2
    · intro hn
      by_cases hab : a = b
      · exact Or.inl hab
      · right
        rw [ihs]
        intro hnd2
        apply hn
        refine ⟨?_, hnd2⟩
        intro hmem
        rcases List.mem_cons.mp hmem with rfl | hmem2
        · exact hab rfl
        · have hba : b ≤ a := by
            rw [List.pairwise_cons] at hs2
            exact hs2.1 a hmem2
          have hab2 : a ≤ b := ha b (List.mem_cons_self _ _)
          exact hab (le_antisymm hab2 hba)

/-- `MLSAG::link` returns true exactly when the concatenation of the two
key-image lists contains some point at least twice. -/
theorem MLSAG.link_iff (s1 s2 : MLSAG) :
    MLSAG.link s1 s2 = true ↔ ¬ (s1.key_images ++ s2.key_images).Nodup := by
  haveI : NeZero L := ⟨by decide⟩
  rw [MLSAG.link]
  have hsorted := @List.sorted_mergeSort ℕ (fun x y : ℕ => decide (x ≤ y))
    (fun a b c h1 h2 => by
      rw [decide_eq_true_eq] at h1 h2 ⊢
      omega)
    (fun a b => by
      rw [Bool.or_eq_true, decide_eq_true_eq, decide_eq_true_eq]
      omega)
    (s1.key_images.map ZMod.val ++ s2.key_images.map ZMod.val)
  have hsorted' := hsorted.imp (fun h => of_decide_eq_true h)
  rw [sorted_adjacent_dup hsorted']
  rw [(List.mergeSort_perm _ _).nodup_iff]
  rw [← List.map_append, List.nodup_map_iff (ZMod.val_injective L)]

/-! ## Claim theorems -/

/-- C1: for every scheme in {SAG, BLSAG, MLSAG, CLSAG}, every well-formed
private key(s), decoy ring, secret index `π ∈ [0, n)` (for MLSAG: every RNG
draw of the internal index), message, and every RNG stream,
`verify (sign …) message` returns `true`; the break condition of the
Fiat-Shamir loop defines every challenge before the gap closure uses
`c_π`. -/
theorem claim_C1 :
    (∀ (H : HashFn) (k : Scalar) (decoys : List Point) (π : ℕ)
      (message : List ℕ) (rng : ℕ → Scalar),
      decoys ≠ [] → π ≤ decoys.length →
      (SAG.sign H k decoys π message rng).bind
        (fun s => SAG.verify H s message) = some true) ∧
    (∀ (H : HashFn) (k : Scalar) (decoys : List Point) (π : ℕ)
      (message : List ℕ) (rng : ℕ → Scalar),
      decoys ≠ [] → π ≤ decoys.length →
      (BLSAG.sign H k decoys π message rng).bind
        (fun s => BLSAG.verify H s message) = some true) ∧
    (∀ (H : HashFn) (ks : List Scalar) (decoys : List (List Point))
      (message : List ℕ) (rand_u32 : ℕ) (rng : ℕ → Scalar),
      decoys ≠ [] → (∀ row ∈ decoys, row.length = ks.length) →
      1 ≤ ks.length →
      (MLSAG.sign H ks decoys message rand_u32 rng).bind
        (fun s => MLSAG.verify H s message) = some true) ∧
    (∀ (H : HashFn) (ks : List Scalar) (decoys : List (List Point)) (π : ℕ)
      (message : List ℕ) (rng : ℕ → Scalar),
      decoys ≠ [] → (∀ row ∈ decoys, row.length = ks.length) →
      1 ≤ ks.length → π ≤ decoys.length →
      (CLSAG.sign H ks decoys π message rng).bind
        (fun s => CLSAG.verify H s message) = some true) :=
  ⟨fun H k decoys π message rng hd hπ =>
      sag_verify_sign H k decoys π message rng hd hπ,
    fun H k decoys π message rng hd hπ =>
      blsag_verify_sign H k decoys π message rng hd hπ,
    fun H ks decoys message rand_u32 rng hd hw hk =>
      mlsag_verify_sign H ks decoys message rand_u32 rng hd hw hk,
    fun H ks decoys π message rng hd hw hk hπ =>
      clsag_verify_sign H ks decoys π message rng hd hw hk hπ⟩

/-- Witness for C1 at concrete inputs, covering the `π = n - 1` edge (SAG,
CLSAG) and the `π = 0` edge (BLSAG, MLSAG via `rand_u32 = 0`). -/
theorem claim_C1_witness :
    ((SAG.sign testHash 3 [5, 9] 2 [] testRng).bind
      (fun s => SAG.verify testHash s []) = some true) ∧
    ((BLSAG.sign testHash 3 [5] 0 [] testRng).bind
      (fun s => BLSAG.verify testHash s []) = some true) ∧
    ((MLSAG.sign testHash [3] [[5]] [] 0 testRng).bind
      (fun s => MLSAG.verify testHash s []) = some true) ∧
    ((CLSAG.sign testHash [3, 4] [[5, 6]] 1 [] testRng).bind
      (fun s => CLSAG.verify testHash s []) = some true) :=
  ⟨claim_C1.1 testHash 3 [5, 9] 2 [] testRng (by decide) (by decide),
    claim_C1.2.1 testHash 3 [5] 0 [] testRng (by decide) (by decide),
    claim_C1.2.2.1 testHash [3] [[5]] [] 0 testRng (by decide) (by decide)
      (by decide),
    claim_C1.2.2.2 testHash [3, 4] [[5, 6]] 1 [] testRng (by decide)
      (by decide) (by decide) (by decide)⟩

/-- C2 (code bug): `MLSAG::sign` takes no `secret_index` argument and is
not a function of the caller-supplied arguments alone: with identical
`(ks, decoy ring, message)` the signature's ring depends on the RNG draw
`next_u32` (`mlsag.rs:79`), contradicting the `Sign` trait
(`traits.rs:6-16`) and the spec's caller-supplied contract. -/
theorem claim_C2 :
    (MLSAG.sign testHash [7] [[11]] [] 0 testRng).map (fun s => s.ring) ≠
      (MLSAG.sign testHash [7] [[11]] [] 1 testRng).map (fun s => s.ring) := by
  decide

/-- C3 (amended): every `verify` aborts with an out-of-bounds panic
(modelled: `none`) on a structural mismatch rather than returning `false`.
`SAG::verify` and `BLSAG::verify` panic exactly when the responses list is
shorter than the ring; `MLSAG::verify` panics exactly when the ring is
empty, or `nc = ring[0].len() ≠ 0` and the responses (first `nr` rows),
the ring rows, or the key images fail to cover `nr × nc`; `CLSAG::verify`
panics exactly when the ring is empty, `nc = 0`, some ring row is shorter
than `nc`, or the key images or responses are too short.  Otherwise the
result is a boolean. -/
theorem claim_C3 : ∀ (H : HashFn) (s : SAG) (sb : BLSAG) (sm : MLSAG)
    (sc : CLSAG) (message : List ℕ),
    (SAG.verify H s message = none ↔ s.responses.length < s.ring.length) ∧
    (BLSAG.verify H sb message = none ↔
      sb.responses.length < sb.ring.length) ∧
    (MLSAG.verify H sm message = none ↔ sm.ring = [] ∨
      ((sm.ring.getD 0 []).length ≠ 0 ∧
        ¬(sm.ring.length ≤ sm.responses.length ∧
          (∀ row ∈ sm.responses.take sm.ring.length,
            (sm.ring.getD 0 []).length ≤ row.length) ∧
          (∀ row ∈ sm.ring, (sm.ring.getD 0 []).length ≤ row.length) ∧
          (sm.ring.getD 0 []).length ≤ sm.key_images.length))) ∧
    (CLSAG.verify H sc message = none ↔ sc.ring = [] ∨
      ¬(1 ≤ (sc.ring.getD 0 []).length ∧
        (∀ row ∈ sc.ring, (sc.ring.getD 0 []).length ≤ row.length) ∧
        (sc.ring.getD 0 []).length ≤ sc.key_images.length ∧
        sc.ring.length ≤ sc.responses.length)) := by
  intro H s sb sm sc message
  refine ⟨?_, ?_, ?_, ?_⟩
  · rw [SAG.verify]
    dsimp only
    split_ifs with h
    · constructor
      · intro hc
        simp at hc
      · intro hlt
        omega
    · constructor
      · intro _
        omega
      · intro _
        rfl
  · rw [BLSAG.verify]
    dsimp only
    split_ifs with h
    · constructor
      · intro hc
        simp at hc
      · intro hlt
        omega
    · constructor
      · intro _
        omega
      · intro _
        rfl
  · rw [MLSAG.verify]
    dsimp only
    split_ifs with h1 h2
    · constructor
      · intro _
        exact Or.inl h1
      · intro _
        rfl
    · constructor
      · intro hc
        simp at hc
      · rintro (hring | ⟨hnc0, hncond⟩)
        · exact absurd hring h1
        · rcases h2 with h20 | h2c
          · exact absurd h20 hnc0
          · exact absurd h2c hncond
    · constructor
      · intro _
        exact Or.inr ⟨fun h0 => h2 (Or.inl h0), fun hc => h2 (Or.inr hc)⟩
      · intro _
        rfl
  · rw [CLSAG.verify]
    dsimp only
    split_ifs with h1 h2
    · constructor
      · intro _
        exact Or.inl h1
      · intro _
        rfl
    · constructor
      · intro hc
        simp at hc
      · rintro (hring | hncond)
        · exact absurd hring h1
        · exact absurd h2 hncond
    · constructor
      · intro _
        exact Or.inr h2
      · intro _
        rfl

/-- Counterexample for C3 as stated: on a signature whose responses list is
shorter than its ring, `SAG::verify` panics (modelled: `none`) instead of
returning `false`. -/
theorem claim_C3_counterexample :
    SAG.verify testHash { challenge := 0, responses := [], ring := [1] } []
        = none ∧
      SAG.verify testHash { challenge := 0, responses := [], ring := [1] } []
        ≠ some false :=
  ⟨by decide, by decide⟩

/-- C4 (amended): `MLSAG::link` returns `true` iff the concatenation of the
two signatures' key-image lists contains some point at least twice — a
point shared between the signatures, or a point occurring twice within one
of them. -/
theorem claim_C4 : ∀ s1 s2 : MLSAG,
    MLSAG.link s1 s2 = true ↔ ¬ (s1.key_images ++ s2.key_images).Nodup :=
  fun s1 s2 => MLSAG.link_iff s1 s2

/-- Counterexample for C4 as stated: two signatures with no common key
image still link when one of them repeats an image internally. -/
theorem claim_C4_counterexample :
    MLSAG.link
        { challenge := 0, responses := [], ring := [], key_images := [2, 2] }
        { challenge := 0, responses := [], ring := [], key_images := [5] }
        = true ∧
      ∀ p ∈ ([2, 2] : List Point), p ∉ ([5] : List Point) := by
  constructor
  · exact (MLSAG.link_iff _ _).mpr (by decide)
  · decide

/-- C5: the CLSAG aggregation coefficients and challenge seed use the exact
byte labels of the source: `μ_j` hashes `"CSLAG_" ‖ decimal(j) ‖ T ‖ K`
(row-major compressed ring `T`, compressed key images `K`, unpadded decimal
index), the challenge chain is seeded with `"CSLAG_c" ‖ T ‖ message`, and
the byte inputs that `CLSAG::verify` recomputes from the signature
(`sig.ring`, `sig.key_images`, `nr = sig.ring.len()`,
`nc = sig.ring[0].len()`) coincide with the signer's. -/
theorem claim_C5 : ∀ (H : HashFn) (ks : List Scalar)
    (decoys : List (List Point)) (π : ℕ) (message : List ℕ)
    (rng : ℕ → Scalar),
    decoys ≠ [] → (∀ row ∈ decoys, row.length = ks.length) →
    1 ≤ ks.length → π ≤ decoys.length →
    (∀ j, clsagMuInput (decoys.length + 1) ks.length
        (List.insertIdx π (List.map (fun k => k * G) ks) decoys)
        (List.map (fun k => k * H.toPoint (compress
          ((List.map (fun k => k * G) ks).getD 0 0))) ks) j =
      clsagMuInputSpec j
        (((List.insertIdx π (List.map (fun k => k * G) ks) decoys).map
          ptBytes).flatten)
        (ptBytes (List.map (fun k => k * H.toPoint (compress
          ((List.map (fun k => k * G) ks).getD 0 0))) ks))) ∧
    (clsagChallengeInput (decoys.length + 1) ks.length
        (List.insertIdx π (List.map (fun k => k * G) ks) decoys) message =
      clsagChallengeInputSpec
        (((List.insertIdx π (List.map (fun k => k * G) ks) decoys).map
          ptBytes).flatten) message) ∧
    ((CLSAG.sign H ks decoys π message rng).map (fun s =>
        (s.ring, s.key_images, s.ring.length, (s.ring.getD 0 []).length)) =
      some (List.insertIdx π (List.map (fun k => k * G) ks) decoys,
        List.map (fun k => k * H.toPoint (compress
          ((List.map (fun k => k * G) ks).getD 0 0))) ks,
        decoys.length + 1, ks.length)) := by
  intro H ks decoys π message rng hd hw hk hπ
  have hd0 : 0 < decoys.length := List.length_pos.mpr hd
  have hks : ks ≠ [] := by
    intro h
    rw [h] at hk
    simp at hk
  have hnc : (decoys.getD 0 []).length = ks.length := by
    refine hw _ ?_
    rw [List.getD_eq_getElem _ _ hd0]
    exact List.getElem_mem _
  have hr2_len : (List.insertIdx π (List.map (fun k => k * G) ks)
      decoys).length = decoys.length + 1 := List.length_insertIdx _ _ hπ
  have hnc' : ((List.insertIdx π (List.map (fun k => k * G) ks)
      decoys).getD 0 []).length = ks.length := by
    by_cases h0 : π = 0
    · rw [h0, List.insertIdx_zero]
      simp
    · rw [getD_insertIdx_zero_of_pos _ _ (by omega) hd0]
      exact hnc
  have hgen : CLSAG.generate_key_image H ks = some (List.map
      (fun k => k * H.toPoint (compress
        ((List.map (fun k => k * G) ks).getD 0 0))) ks) := by
    rw [CLSAG.generate_key_image, if_neg hks]
  have htake_rows : (List.insertIdx π (List.map (fun k => k * G) ks)
      decoys).take (decoys.length + 1) =
      List.insertIdx π (List.map (fun k => k * G) ks) decoys := by
    rw [show decoys.length + 1 = (List.insertIdx π
      (List.map (fun k => k * G) ks) decoys).length from hr2_len.symm,
      List.take_length]
  have hmaps : (List.insertIdx π (List.map (fun k => k * G) ks) decoys).map
      (fun row => ptBytes (row.take ks.length)) =
      (List.insertIdx π (List.map (fun k => k * G) ks) decoys).map ptBytes := by
    refine List.map_congr_left ?_
    intro row hrow
    rcases (List.mem_insertIdx hπ).mp hrow with heq | hmem
    · subst heq
      rw [show ks.length = (List.map (fun k => k * G) ks).length from
        (List.length_map _ _).symm, List.take_length]
    · rw [show ks.length = row.length from (hw row hmem).symm,
        List.take_length]
  have himgs : (List.map (fun k => k * H.toPoint (compress
      ((List.map (fun k => k * G) ks).getD 0 0))) ks).take ks.length =
      List.map (fun k => k * H.toPoint (compress
        ((List.map (fun k => k * G) ks).getD 0 0))) ks := by
    rw [show ks.length = (List.map (fun k => k * H.toPoint (compress
      ((List.map (fun k => k * G) ks).getD 0 0))) ks).length from
      (List.length_map _ _).symm, List.take_length]
  have hlabel : ∀ j : ℕ, strBytes ("CSLAG_" ++ Nat.repr j) =
      strBytes "CSLAG_" ++ (Nat.toDigits 10 j).map Char.toNat := by
    intro j
    simp only [strBytes]
    rw [String.data_append, List.map_append]
    rfl
  refine ⟨?_, ?_, ?_⟩
  · intro j
    rw [clsagMuInput, clsagMuInputSpec, hlabel j, htake_rows, hmaps, himgs]
  · rw [clsagChallengeInput, clsagChallengeInputSpec, htake_rows, hmaps]
  · rw [CLSAG.sign]
    dsimp only
    rw [hgen]
    dsimp only
    split_ifs with h1 h2
    · exact absurd h1 hd
    · dsimp only [Option.map]
      rw [hr2_len, hnc']
    · refine absurd ⟨?_, ?_, ?_, hπ⟩ h2
      · rw [hnc]
        exact hk
      · rw [hnc]
      · intro row hrow
        rw [hnc]
        exact le_of_eq (hw row hrow).symm

/-- Witness for C5 at a concrete CLSAG instance (`n_r = 2`, `n_c = 2`,
`π = 1`), with the `μ`-input equality taken at column `j = 1`. -/
theorem claim_C5_witness :
    (clsagMuInput 2 2 (List.insertIdx 1 (List.map (fun k => k * G) [2, 3])
        [[4, 5]])
        (List.map (fun k => k * testHash.toPoint (compress
          ((List.map (fun k => k * G) [2, 3]).getD 0 0))) [2, 3]) 1 =
      clsagMuInputSpec 1
        (((List.insertIdx 1 (List.map (fun k => k * G) [2, 3]) [[4, 5]]).map
          ptBytes).flatten)
        (ptBytes (List.map (fun k => k * testHash.toPoint (compress
          ((List.map (fun k => k * G) [2, 3]).getD 0 0))) [2, 3]))) ∧
    (clsagChallengeInput 2 2 (List.insertIdx 1
        (List.map (fun k => k * G) [2, 3]) [[4, 5]]) [9] =
      clsagChallengeInputSpec
        (((List.insertIdx 1 (List.map (fun k => k * G) [2, 3]) [[4, 5]]).map
          ptBytes).flatten) [9]) ∧
    ((CLSAG.sign testHash [2, 3] [[4, 5]] 1 [9] testRng).map (fun s =>
        (s.ring, s.key_images, s.ring.length, (s.ring.getD 0 []).length)) =
      some (List.insertIdx 1 (List.map (fun k => k * G) [2, 3]) [[4, 5]],
        List.map (fun k => k * testHash.toPoint (compress
          ((List.map (fun k => k * G) [2, 3]).getD 0 0))) [2, 3], 2, 2)) :=
  ⟨(claim_C5 testHash [2, 3] [[4, 5]] 1 [9] testRng (by decide) (by decide)
      (by decide) (by decide)).1 1,
    (claim_C5 testHash [2, 3] [[4, 5]] 1 [9] testRng (by decide) (by decide)
      (by decide) (by decide)).2.1,
    (claim_C5 testHash [2, 3] [[4, 5]] 1 [9] testRng (by decide) (by decide)
      (by decide) (by decide)).2.2⟩

/-- C6: `BLSAG::generate_key_image k` equals `k · H_p(compress (k·G))`, and
the `key_image` field of every signature produced by `BLSAG::sign` with `k`
is that same point (so repeated calls agree: the function is
deterministic). -/
theorem claim_C6 :
    (∀ (H : HashFn) (k : Scalar),
      BLSAG.generate_key_image H k = k * H.toPoint (compress (k * G))) ∧
    (∀ (H : HashFn) (k : Scalar) (decoys : List Point) (π : ℕ)
      (message : List ℕ) (rng : ℕ → Scalar), π ≤ decoys.length →
      (BLSAG.sign H k decoys π message rng).map (fun s => s.key_image) =
        some (BLSAG.generate_key_image H k)) := by
  constructor
  · intro H k
    rw [BLSAG.generate_key_image]
  · intro H k decoys π message rng hπ
    rw [BLSAG.sign, if_pos hπ]
    rfl

/-- Witness for C6 at concrete inputs. -/
theorem claim_C6_witness :
    (BLSAG.generate_key_image testHash 3 =
      3 * testHash.toPoint (compress (3 * G))) ∧
    ((BLSAG.sign testHash 3 [5] 1 [] testRng).map (fun s => s.key_image) =
      some (BLSAG.generate_key_image testHash 3)) :=
  ⟨claim_C6.1 testHash 3,
    claim_C6.2 testHash 3 [5] 1 [] testRng (by decide)⟩

/-- C7 (code bug): for SAG the signature's ring is the decoy list with
`k·G` inserted at the caller's `secret_index` and `|ring| = |responses| = n`
— but `MLSAG::sign` has no `secret_index` parameter: the key row is
inserted at the RNG-drawn index (`mlsag.rs:79`, here `rand_u32 = 1` placing
`[3·G]` at position 1), violating the `Sign` trait the claim describes. -/
theorem claim_C7 :
    ((SAG.sign testHash 3 [5, 9] 1 [] testRng).map
      (fun s => (s.ring, s.responses.length, s.ring.length)) =
      some ([5, 3, 9], 3, 3)) ∧
    ((MLSAG.sign testHash [3] [[5]] [] 1 testRng).map (fun s => s.ring) =
      some [[5], [3]]) :=
  ⟨by decide, by decide⟩

/-- C8: under the well-formedness preconditions (decoy ring non-empty,
`secret_index ≤ |decoys|`, rectangular rows of width `|ks| ≥ 1` for the
multi-column schemes) every signing function runs to completion: no panic
branch (modelled: `none`) is reachable. -/
theorem claim_C8 :
    (∀ (H : HashFn) (k : Scalar) (decoys : List Point) (π : ℕ)
      (message : List ℕ) (rng : ℕ → Scalar),
      decoys ≠ [] → π ≤ decoys.length →
      (SAG.sign H k decoys π message rng).isSome = true) ∧
    (∀ (H : HashFn) (k : Scalar) (decoys : List Point) (π : ℕ)
      (message : List ℕ) (rng : ℕ → Scalar),
      decoys ≠ [] → π ≤ decoys.length →
      (BLSAG.sign H k decoys π message rng).isSome = true) ∧
    (∀ (H : HashFn) (ks : List Scalar) (decoys : List (List Point))
      (message : List ℕ) (rand_u32 : ℕ) (rng : ℕ → Scalar),
      decoys ≠ [] → (∀ row ∈ decoys, row.length = ks.length) →
      1 ≤ ks.length →
      (MLSAG.sign H ks decoys message rand_u32 rng).isSome = true) ∧
    (∀ (H : HashFn) (ks : List Scalar) (decoys : List (List Point)) (π : ℕ)
      (message : List ℕ) (rng : ℕ → Scalar),
      decoys ≠ [] → (∀ row ∈ decoys, row.length = ks.length) →
      1 ≤ ks.length → π ≤ decoys.length →
      (CLSAG.sign H ks decoys π message rng).isSome = true) :=
  ⟨fun H k decoys π message rng _ hπ =>
      sag_sign_total H k decoys π message rng hπ,
    fun H k decoys π message rng _ hπ =>
      blsag_sign_total H k decoys π message rng hπ,
    fun H ks decoys message rand_u32 rng hd hw _ =>
      mlsag_sign_total H ks decoys message rand_u32 rng hd hw,
    fun H ks decoys π message rng hd hw hk hπ =>
      clsag_sign_total H ks decoys π message rng hd hw hk hπ⟩

/-- Witness for C8 at concrete inputs. -/
theorem claim_C8_witness :
    ((SAG.sign testHash 3 [5] 0 [] testRng).isSome = true) ∧
    ((BLSAG.sign testHash 3 [5] 1 [] testRng).isSome = true) ∧
    ((MLSAG.sign testHash [3] [[5]] [] 2 testRng).isSome = true) ∧
    ((CLSAG.sign testHash [3, 4] [[5, 6]] 0 [] testRng).isSome = true) :=
  ⟨claim_C8.1 testHash 3 [5] 0 [] testRng (by decide) (by decide),
    claim_C8.2.1 testHash 3 [5] 1 [] testRng (by decide) (by decide),
    claim_C8.2.2.1 testHash [3] [[5]] [] 2 testRng (by decide) (by decide)
      (by decide),
    claim_C8.2.2.2 testHash [3, 4] [[5, 6]] 0 [] testRng (by decide)
      (by decide) (by decide) (by decide)⟩

/-- C9: every column of `CLSAG::generate_key_image ks` is
`ks[j] · H_p(compress (ks[0]·G))` — a multiple of the single hash-to-point
of the column-0 (primary) public key, not of its own column's key. -/
theorem claim_C9 : ∀ (H : HashFn) (ks : List Scalar) (j : ℕ),
    j < ks.length →
    (CLSAG.generate_key_image H ks).map (fun imgs => imgs.getD j 0) =
      some (ks.getD j 0 * H.toPoint (compress (ks.getD 0 0 * G))) := by
  intro H ks j hj
  have hks : ks ≠ [] := by
    intro h
    rw [h] at hj
    simp at hj
  rw [CLSAG.generate_key_image, if_neg hks]
  dsimp only [Option.map]
  refine congrArg some ?_
  rw [getD_map_lt _ ks 0 0 hj,
    getD_map_lt (fun k => k * G) ks 0 0 (by omega)]

/-- Witness for C9 at `ks = [2, 5]`, column `j = 1`. -/
theorem claim_C9_witness :
    (CLSAG.generate_key_image testHash [2, 5]).map
        (fun imgs => imgs.getD 1 0) =
      some (([2, 5] : List Scalar).getD 1 0 *
        testHash.toPoint (compress (([2, 5] : List Scalar).getD 0 0 * G))) :=
  claim_C9 testHash [2, 5] 1 (by decide)

/-- C10: `SAG::verify` and `BLSAG::verify` accept the degenerate signature
with empty ring and empty responses for every challenge and message: the
reconstruction loop runs zero times, so the reconstructed challenge is the
stored one. -/
theorem claim_C10 : ∀ (H : HashFn) (c : Scalar) (I : Point)
    (message : List ℕ),
    SAG.verify H { challenge := c, responses := [], ring := [] } message =
      some true ∧
    BLSAG.verify H
      { challenge := c, responses := [], ring := [], key_image := I }
      message = some true := by
  intro H c I message
  constructor
  · rw [SAG.verify]
    dsimp only
    split_ifs with h
    · simp
    · simp at h
  · rw [BLSAG.verify]
    dsimp only
    split_ifs with h
    · simp
    · simp at h

end Nazgul
